import Mathlib

/-!
Verification development for the node-http-nginx configuration parser and
request-routing core (`src/extension.js`).

The JavaScript source is shallowly embedded: every function below mirrors the
control flow of its namesake in `extension.js`.  Conventions of the embedding:

* Strings are Lean `String`s; character-level work happens on `String.data`
  (a `List Char`), since the JS code indexes strings by position.
* The JS regular expressions used by the source are tiny and are translated
  to explicit character predicates (`\s` to `isJsSpace`, `\d` to
  `Char.isDigit`, `/:(\d+)$/` and `/^\d+$/` to suffix/whole-string digit
  scans, `/\\/g` and `/^\/+/` to character maps/drops).
* `new RegExp(pattern, flags)` for `location ~ ...` rules is an external
  library call; compiled patterns are modelled as opaque test functions
  `String → Bool` supplied by the environment.
* Node's `path` module is modelled with its posix semantics (`path.sep` is
  `/`) and a fixed process working directory of `/`; the source itself uses
  `path.posix.normalize` for request paths.
* `fs.promises.stat` is modelled as a function from paths to an `FsEntry`
  describing what the probe observes (regular file, directory, ENOENT, or
  any other error, which `stat` surfaces by throwing).
* The two loops that do not consume exactly one element per iteration (the
  tokenizer, whose comment branch skips to the next newline, and the
  recursive-descent token parser) are written with an explicit fuel
  parameter so that they are structurally recursive and kernel-computable.
  The fuel is seeded with the input length; every iteration of the source
  loops consumes at least one input element, so the fuel never runs out
  (`tokenizeAux_fuel_irrelevant` and `parseBlock_rem_length_le` below make
  this precise), and the out-of-fuel fallbacks are unreachable.
-/

/-- Character class of the JS regex `\s` (ECMAScript WhiteSpace plus
LineTerminator), used by the tokenizer via `/\s/.test(ch)`. -/
def isJsSpace (c : Char) : Bool :=
  c = ' ' || c = '\t' || c = '\n' || c = '\r' || c = '\x0b' || c = '\x0c' ||
  c = '\u00A0' || c = '\u1680' || ('\u2000' ≤ c && c ≤ '\u200A') ||
  c = '\u2028' || c = '\u2029' || c = '\u202F' || c = '\u205F' ||
  c = '\u3000' || c = '\uFEFF'

/-- JS `haystack.startsWith(needle)` (kernel-computable, unlike
`String.startsWith`). -/
def jsStartsWith (s pre : String) : Bool :=
  pre.data.isPrefixOf s.data

/-- JS `s.toLowerCase()`, restricted to the ASCII case mapping. -/
def jsToLower (s : String) : String :=
  String.mk (s.data.map Char.toLower)

/-- The length of `List.dropWhile` never exceeds the input length. -/
theorem length_dropWhile_le {α : Type} (p : α → Bool) (l : List α) :
    (l.dropWhile p).length ≤ l.length := by
  induction l with
  | nil => simp [List.dropWhile]
  | cons a l ih =>
    simp only [List.dropWhile]
    split
    · exact Nat.le_succ_of_le ih
    · exact Nat.le_refl _

namespace NginxSim

/-! ## Tokenizer (`tokenizeNginxConf`) -/

/-- The `pushCurrent` helper of `tokenizeNginxConf`: append the pending
bare-word accumulator to the token list unless it is empty. -/
def pushCurrent (tokens : List String) (current : List Char) : List String :=
  if current = [] then tokens else tokens ++ [String.mk current]

/-- The main scanning loop of `tokenizeNginxConf`, one case per branch of the
JS `while` loop.  State: remaining input, the open quote character (if any),
the pending bare-word characters, and the emitted tokens.  The comment branch
skips to the next newline (`while (i < text.length && text[i] !== '\n')`),
rendered as `dropWhile`. -/
def tokenizeAux : Nat → List Char → Option Char → List Char → List String → List String
  | _, [], _, current, tokens => pushCurrent tokens current
  | 0, _ :: _, _, current, tokens => pushCurrent tokens current
  | fuel + 1, ch :: rest, some q, current, tokens =>
    if ch = q then
      tokenizeAux fuel rest none current tokens
    else if ch = '\\' then
      match rest with
      | next :: rest2 => tokenizeAux fuel rest2 (some q) (current ++ [next]) tokens
      | [] => tokenizeAux fuel [] (some q) (current ++ [ch]) tokens
    else
      tokenizeAux fuel rest (some q) (current ++ [ch]) tokens
  | fuel + 1, ch :: rest, none, current, tokens =>
    if ch = '"' ∨ ch = '\x27' then
      tokenizeAux fuel rest (some ch) current tokens
    else if ch = '#' then
      tokenizeAux fuel (rest.dropWhile (fun c => c ≠ '\n')) none []
        (pushCurrent tokens current)
    else if isJsSpace ch then
      tokenizeAux fuel rest none [] (pushCurrent tokens current)
    else if ch = '\x7b' ∨ ch = '\x7d' ∨ ch = ';' then
      tokenizeAux fuel rest none [] (pushCurrent tokens current ++ [String.mk [ch]])
    else
      tokenizeAux fuel rest none (current ++ [ch]) tokens

/-- Any fuel of at least the input length gives the same tokenization: the
out-of-fuel fallback of `tokenizeAux` is unreachable, i.e. the source loop
terminates after at most one iteration per input character. -/
theorem tokenizeAux_fuel_irrelevant :
    ∀ (fuel fuel' : Nat) (chars : List Char) (q : Option Char)
      (current : List Char) (tokens : List String),
      chars.length ≤ fuel → chars.length ≤ fuel' →
      tokenizeAux fuel chars q current tokens =
        tokenizeAux fuel' chars q current tokens := by
  intro fuel
  induction fuel with
  | zero =>
    intro fuel' chars q current tokens h _
    cases chars with
    | nil => cases fuel' <;> rfl
    | cons c cs => simp at h
  | succ n ih =>
    intro fuel' chars q current tokens h h'
    cases chars with
    | nil => cases fuel' <;> rfl
    | cons ch rest =>
      cases fuel' with
      | zero => simp at h'
      | succ n' =>
        have hr : rest.length ≤ n := Nat.lt_succ_iff.mp h
        have hr' : rest.length ≤ n' := Nat.lt_succ_iff.mp h'
        have hd : (rest.dropWhile (fun c => c ≠ '\n')).length ≤ n :=
          Nat.le_trans (length_dropWhile_le _ _) hr
        have hd' : (rest.dropWhile (fun c => c ≠ '\n')).length ≤ n' :=
          Nat.le_trans (length_dropWhile_le _ _) hr'
        cases q with
        | some qc =>
          simp only [tokenizeAux]
          split
          · exact ih n' rest none current tokens hr hr'
          · split
            · cases rest with
              | nil => rfl
              | cons next rest2 =>
                exact ih n' rest2 (some qc) _ tokens
                  (Nat.le_of_succ_le hr) (Nat.le_of_succ_le hr')
            · exact ih n' rest (some qc) _ tokens hr hr'
        | none =>
          simp only [tokenizeAux]
          split
          · exact ih n' rest _ current tokens hr hr'
          · split
            · exact ih n' _ none [] _ hd hd'
            · split
              · exact ih n' rest none [] _ hr hr'
              · split
                · exact ih n' rest none [] _ hr hr'
                · exact ih n' rest none _ tokens hr hr'

/-- `tokenizeNginxConf`: configuration text to flat token list. -/
def tokenizeNginxConf (text : String) : List String :=
  tokenizeAux text.data.length text.data none [] []

example : tokenizeNginxConf "a b" = ["a", "b"] := by decide

example : tokenizeNginxConf "root \"a b\";" = ["root", "a b", ";"] := by decide

/-! ## Structural parser (`parseNginxTokens`) -/

/-- AST nodes: either `{type:'directive', name, args}` or
`{type:'block', name, args, children}`. -/
inductive Node where
  | directive (name : String) (args : List String)
  | block (name : String) (args : List String) (children : List Node)
deriving Repr

/-- The three structural tokens at which the argument-collection loop of
`parseBlock` stops: `cur === ';' || cur === '\x7b' || cur === '\x7d'`. -/
def isTermTok (s : String) : Bool :=
  s = ";" || s = "\x7b" || s = "\x7d"

/-- The `parseBlock` closure of `parseNginxTokens`.  Returns the nodes of one
nesting level together with the tokens remaining after the level's closing
brace.  One case per branch of the JS loop body:
a leading closing brace closes the level; an empty group is skipped; a group
ending in `;` is a directive; a group ending in an opening brace is a block
whose children come from a recursive call; a group sitting directly before a
closing brace is emitted as a directive and the brace is left for the loop
top (so it closes the level right away); a group that runs into end-of-input
is dropped (`idx += 1` walks past the end and the loop exits without
pushing). -/
def parseBlock : Nat → List String → List Node × List String
  | _, [] => ([], [])
  | 0, ts => ([], ts)
  | fuel + 1, t :: rest =>
    if t = "\x7d" then ([], rest)
    else
      match (t :: rest).takeWhile (fun x => !isTermTok x),
            (t :: rest).dropWhile (fun x => !isTermTok x) with
      | [], _ => parseBlock fuel rest
      | _ :: _, [] => ([], [])
      | name :: args, e :: r2 =>
        if e = ";" then
          let r := parseBlock fuel r2
          (Node.directive name args :: r.1, r.2)
        else if e = "\x7b" then
          let rc := parseBlock fuel r2
          let rs := parseBlock fuel rc.2
          (Node.block name args rc.1 :: rs.1, rs.2)
        else if e = "\x7d" then
          ([Node.directive name args], r2)
        else
          parseBlock fuel r2

/-- `parseBlock` only ever consumes tokens: the remainder it returns is no
longer than its input. -/
theorem parseBlock_rem_length_le :
    ∀ (fuel : Nat) (ts : List String),
      (parseBlock fuel ts).2.length ≤ ts.length := by
  intro fuel
  induction fuel with
  | zero =>
    intro ts
    cases ts <;> simp [parseBlock]
  | succ n ih =>
    intro ts
    cases ts with
    | nil => simp [parseBlock]
    | cons t rest =>
      have hsum :
          ((t :: rest).takeWhile (fun x => !isTermTok x)).length +
            ((t :: rest).dropWhile (fun x => !isTermTok x)).length =
            (t :: rest).length := by
        conv_rhs => rw [← List.takeWhile_append_dropWhile
          (p := fun x => !isTermTok x) (l := t :: rest)]
        exact (List.length_append _ _).symm
      simp only [parseBlock]
      split
      · simp
      · cases hp : (t :: rest).takeWhile (fun x => !isTermTok x) with
        | nil =>
          simp only [hp]
          exact Nat.le_trans (ih rest) (Nat.le_succ _)
        | cons name args =>
          cases hd : (t :: rest).dropWhile (fun x => !isTermTok x) with
          | nil => simp only [hp, hd]; simp
          | cons e r2 =>
            rw [hp, hd] at hsum
            simp only [List.length_cons] at hsum
            have hr2 : r2.length ≤ rest.length := by omega
            simp only [hp, hd]
            split
            · exact Nat.le_trans (Nat.le_trans (ih r2) hr2) (Nat.le_succ _)
            · split
              · exact Nat.le_trans
                  (Nat.le_trans (Nat.le_trans (ih _) (ih r2)) hr2)
                  (Nat.le_succ _)
              · split
                · simp only [List.length_cons]; omega
                · exact Nat.le_trans (Nat.le_trans (ih r2) hr2) (Nat.le_succ _)

/-- Any fuel of at least the input length yields the same parse: the
out-of-fuel fallback of `parseBlock` is unreachable, i.e. the source's
recursive-descent loop terminates. -/
theorem parseBlock_fuel_irrelevant :
    ∀ (fuel fuel' : Nat) (ts : List String),
      ts.length ≤ fuel → ts.length ≤ fuel' →
      parseBlock fuel ts = parseBlock fuel' ts := by
  intro fuel
  induction fuel with
  | zero =>
    intro fuel' ts h _
    cases ts with
    | nil => cases fuel' <;> rfl
    | cons t rest => simp at h
  | succ n ih =>
    intro fuel' ts h h'
    cases ts with
    | nil => cases fuel' <;> rfl
    | cons t rest =>
      cases fuel' with
      | zero => simp at h'
      | succ n' =>
        have hsum :
            ((t :: rest).takeWhile (fun x => !isTermTok x)).length +
              ((t :: rest).dropWhile (fun x => !isTermTok x)).length =
              (t :: rest).length := by
          conv_rhs => rw [← List.takeWhile_append_dropWhile
            (p := fun x => !isTermTok x) (l := t :: rest)]
          exact (List.length_append _ _).symm
        have hrest : rest.length ≤ n := Nat.lt_succ_iff.mp h
        have hrest' : rest.length ≤ n' := Nat.lt_succ_iff.mp h'
        simp only [parseBlock]
        split
        · rfl
        · cases hp : (t :: rest).takeWhile (fun x => !isTermTok x) with
          | nil =>
            simp only [hp]
            exact ih n' rest hrest hrest'
          | cons name args =>
            cases hd : (t :: rest).dropWhile (fun x => !isTermTok x) with
            | nil => simp only [hp, hd]
            | cons e r2 =>
              rw [hp, hd] at hsum
              simp only [List.length_cons] at hsum
              have hr2 : r2.length ≤ n := by omega
              have hr2' : r2.length ≤ n' := by omega
              simp only [hp, hd]
              split
              · rw [ih n' r2 hr2 hr2']
              · split
                · rw [ih n' r2 hr2 hr2']
                  rw [ih n' (parseBlock n' r2).2
                    (Nat.le_trans (Nat.le_trans (parseBlock_rem_length_le n' r2) hr2)
                      (by omega))
                    (Nat.le_trans (Nat.le_trans (parseBlock_rem_length_le n' r2) hr2')
                      (by omega))]
                · split
                  · rfl
                  · exact ih n' r2 hr2 hr2'

/-- `parseNginxTokens`: token list to AST (the nodes of the outermost level;
tokens after a stray top-level closing brace are discarded, as in the
source's single `parseBlock()` call). -/
def parseNginxTokens (tokens : List String) : List Node :=
  (parseBlock tokens.length tokens).1

example :
    parseNginxTokens (tokenizeNginxConf "server \x7b listen 80; \x7d") =
      [Node.block "server" [] [Node.directive "listen" ["80"]]] := rfl

/-! ## Node `path` module (posix semantics, process cwd fixed to `/`) -/

/-- JS `s.split('/')` (kernel-computable). -/
def splitChars (sep : Char) : List Char → List (List Char)
  | [] => [[]]
  | c :: rest =>
    let r := splitChars sep rest
    if c = sep then [] :: r
    else
      match r with
      | g :: gs => (c :: g) :: gs
      | [] => [[c]]

/-- Split a string at `/` separators. -/
def splitOnSlash (s : String) : List String :=
  (splitChars '/' s.data).map String.mk

/-- Node's `normalizeString`: process `.`/`..`/empty segments against a
segment stack.  With `allowAboveRoot = false` (absolute paths) a `..` at the
root is silently dropped; with `true` (relative paths) leading `..` segments
are preserved. -/
def normSegs (allowAboveRoot : Bool) (segs : List String) : List String :=
  (segs.foldl (fun acc seg =>
    if seg = "" ∨ seg = "." then acc
    else if seg = ".." then
      match acc with
      | top :: rest =>
        if top = ".." then (if allowAboveRoot then ".." :: acc else acc)
        else rest
      | [] => if allowAboveRoot then [".."] else []
    else seg :: acc) []).reverse

/-- `path.posix.normalize`. -/
def posixNormalize (s : String) : String :=
  if s = "" then "."
  else
    let abs := jsStartsWith s "/"
    let trail := s.data.getLast? = some '/'
    let core := String.intercalate "/" (normSegs (!abs) (splitOnSlash s))
    if core = "" then (if abs then "/" else if trail then "./" else ".")
    else (if abs then "/" ++ core else core) ++ (if trail then "/" else "")

/-- The argument-gathering loop of `path.resolve`, which walks the argument
list from right to left, skipping empty arguments and stopping at the first
absolute one; if none is absolute the process cwd (modelled as `/`) is
prepended.  Takes the arguments already reversed. -/
def resolveGather : List String → String
  | [] => "/"
  | p :: earlier =>
    if p = "" then resolveGather earlier
    else if jsStartsWith p "/" then p
    else resolveGather earlier ++ "/" ++ p

/-- `path.resolve(...parts)` with posix semantics and cwd `/`: gather the
arguments, then normalize with `allowAboveRoot = false` (the result is
always absolute here because the cwd is). -/
def jsResolve (parts : List String) : String :=
  "/" ++ String.intercalate "/"
    (normSegs false (splitOnSlash (resolveGather parts.reverse)))

/-- `path.join(a, b)` with posix semantics: concatenate the non-empty
arguments with `/` and normalize; an all-empty join is `.`. -/
def jsJoin (a b : String) : String :=
  if a = "" ∧ b = "" then "."
  else if a = "" then posixNormalize b
  else if b = "" then posixNormalize a
  else posixNormalize (a ++ "/" ++ b)

example : posixNormalize "/../../etc/passwd" = "/etc/passwd" := by decide
example : jsResolve ["/srv", "etc/passwd"] = "/srv/etc/passwd" := by decide
example : jsResolve ["/srv"] = "/srv" := by decide
example : jsJoin "/r/d" "index.html" = "/r/d/index.html" := by decide

/-! ## AST query layer and config model builder -/

/-- Field accessor: a node's name. -/
def Node.name : Node → String
  | .directive n _ => n
  | .block n _ _ => n

/-- Field accessor: a node's argument list. -/
def Node.args : Node → List String
  | .directive _ a => a
  | .block _ a _ => a

/-- Field accessor: a block's children (`node.children || []` in the
source, so a directive yields the empty list). -/
def Node.children : Node → List Node
  | .directive _ _ => []
  | .block _ _ c => c

/-- `findBlocks`: the block children with a given name, in order. -/
def findBlocks (ast : List Node) (name : String) : List Node :=
  ast.filter fun n =>
    match n with
    | .block nm _ _ => nm == name
    | _ => false

/-- `findDirectives`: the directive children with a given name, in order. -/
def findDirectives (ast : List Node) (name : String) : List Node :=
  ast.filter fun n =>
    match n with
    | .directive nm _ => nm == name
    | _ => false

/-- Decimal value of a digit string (`parseInt(s, 10)` on an all-digit
string). -/
def digitsToNat (ds : List Char) : Nat :=
  ds.foldl (fun n c => n * 10 + (c.toNat - 48)) 0

/-- `parseListenPort`: no arguments gives 80; a first argument with a
trailing `:<digits>` group (`/:(\d+)$/`) gives that group's value; a purely
numeric first argument (`/^\d+$/`) gives its own value; anything else gives
80. -/
def parseListenPort (args : List String) : Nat :=
  match args with
  | [] => 80
  | s :: _ =>
    let rev := s.data.reverse
    let ds := rev.takeWhile Char.isDigit
    if ds ≠ [] ∧ (rev.dropWhile Char.isDigit).head? = some ':' then
      digitsToNat ds.reverse
    else if s.data ≠ [] ∧ s.data.all Char.isDigit then
      digitsToNat s.data
    else 80

example : parseListenPort ["0.0.0.0:8080"] = 8080 := by decide
example : parseListenPort ["8081"] = 8081 := by decide
example : parseListenPort ["[::]"] = 80 := by decide
example : parseListenPort ["0"] = 0 := by decide
example : parseListenPort ["99999"] = 99999 := by decide

/-- JS `String.prototype.trim` (WhiteSpace and LineTerminator at both
ends). -/
def jsTrim (s : String) : String :=
  String.mk (((s.data.dropWhile isJsSpace).reverse.dropWhile isJsSpace).reverse)

/-- `parseIndexList`: the `index` directive's arguments, trimmed, empties
dropped; no arguments gives the default pair. -/
def parseIndexList (args : List String) : List String :=
  if args = [] then ["index.html", "index.htm"]
  else (args.map jsTrim).filter (fun s => s ≠ "")

/-- `parseTryFiles`: the `try_files` directive's arguments, trimmed, empties
dropped; `null` when there are no arguments or nothing survives. -/
def parseTryFiles (args : List String) : Option (List String) :=
  if args = [] then none
  else
    let out := (args.map jsTrim).filter (fun s => s ≠ "")
    if out = [] then none else some out

/-- Location-rule kinds (`'exact' | 'prefix' | 'regex'`; `pfx` stands for
the source's `'prefix'` string). -/
inductive LocKind where
  | exact
  | pfx
  | regex
deriving Repr, DecidableEq

/-- One entry of the builder's `locations` array.  The `regex` field holds
the `new RegExp(matcher, flags)` object for regex rules, modelled as an
opaque match predicate on paths. -/
structure LocationRule where
  kind : LocKind
  matcher : String
  noRegex : Bool
  regex : Option (String → Bool)
  proxyPass : Option String
  root : Option String
  tryFiles : Option (List String)

/-- JS `s || dflt` on strings: the empty string is falsy. -/
def jsOr (s dflt : String) : String :=
  if s = "" then dflt else s

/-- The body of the builder's `for (const block of findBlocks(..,
'location'))` loop: classify the modifier and capture the per-rule
`proxy_pass`, `root` and `try_files` directives.  `compileRegex` stands for
the `RegExp` constructor (pattern, flags ↦ match predicate). -/
def buildLocationRule (compileRegex : String → String → String → Bool)
    (block : Node) : LocationRule :=
  let args := block.args
  let modifier := args.headD ""
  let kindMatcherFlagsNo : LocKind × String × String × Bool :=
    if modifier = "=" then
      (LocKind.exact, jsOr (args.getD 1 "") "/", "", false)
    else if modifier = "~" ∨ modifier = "~*" then
      (LocKind.regex, args.getD 1 "", if modifier = "~*" then "i" else "", false)
    else if modifier = "^~" then
      (LocKind.pfx, jsOr (args.getD 1 "") "/", "", true)
    else
      (LocKind.pfx, jsOr (args.getD 0 "") "/", "", false)
  { kind := kindMatcherFlagsNo.1
    matcher := kindMatcherFlagsNo.2.1
    noRegex := kindMatcherFlagsNo.2.2.2
    regex :=
      if kindMatcherFlagsNo.1 = LocKind.regex then
        some (compileRegex kindMatcherFlagsNo.2.1 kindMatcherFlagsNo.2.2.1)
      else none
    proxyPass :=
      ((findDirectives block.children "proxy_pass").head?).bind
        fun d => d.args.head?
    root :=
      ((findDirectives block.children "root").head?).bind
        fun d => d.args.head?
    tryFiles :=
      match (findDirectives block.children "try_files").head? with
      | some d => parseTryFiles d.args
      | none => none }

/-- The flat server configuration produced by
`buildNodeServerConfigFromAst`. -/
structure ServerConfig where
  listenPort : Nat
  serverRoot : String
  serverIndex : List String
  locations : List LocationRule

/-- `buildNodeServerConfigFromAst`: first `http` block, first `server`
block inside it (`none` when either is missing), then the `listen` port,
the resolved server `root` (the base directory when absent or empty), the
`index` list, and the location rules in source order. -/
def buildNodeServerConfigFromAst (compileRegex : String → String → String → Bool)
    (ast : List Node) (configFilePath : String) (baseDir : String) :
    Option ServerConfig :=
  match (findBlocks ast "http").head? with
  | none => none
  | some httpBlock =>
    match (findBlocks httpBlock.children "server").head? with
    | none => none
    | some server =>
      let listenPort :=
        parseListenPort
          (match (findDirectives server.children "listen").head? with
           | some d => d.args
           | none => [])
      let serverRoot :=
        match (findDirectives server.children "root").head?.bind
            (fun d => d.args.head?) with
        | some s => if s = "" then baseDir else jsResolve [baseDir, s]
        | none => baseDir
      let serverIndex :=
        match (findDirectives server.children "index").head? with
        | some d => parseIndexList d.args
        | none => ["index.html", "index.htm"]
      some
        { listenPort := listenPort
          serverRoot := serverRoot
          serverIndex := serverIndex
          locations :=
            (findBlocks server.children "location").map
              (buildLocationRule compileRegex) }

set_option maxRecDepth 10000 in
example :
    ((buildNodeServerConfigFromAst (fun _ _ _ => false)
        (parseNginxTokens (tokenizeNginxConf
          "http \x7b server \x7b listen 8080; root \"a b\"; location /x \x7b try_files /a.html /b.html; \x7d \x7d \x7d"))
        "nginx.conf" "/base").map fun c =>
      (c.listenPort, c.serverRoot, c.serverIndex,
        c.locations.map fun l => (l.kind, l.matcher, l.tryFiles))) =
      some (8080, "/base/a b", ["index.html", "index.htm"],
        [(LocKind.pfx, "/x", some ["/a.html", "/b.html"])]) := rfl

/-! ## Location matcher (`pickLocation`) -/

/-- `l.regex?.test(pathname)`: false when the rule has no compiled
pattern. -/
def regexTest (l : LocationRule) (pathname : String) : Bool :=
  match l.regex with
  | some f => f pathname
  | none => false

/-- One insertion step of a stable descending sort by matcher length: the
incoming (later) element is placed after every element whose key is at
least as large, exactly the guarantee of `Array.prototype.sort` (stable)
with the comparator `(a, b) => b.matcher.length - a.matcher.length`. -/
def stableInsert (x : LocationRule) : List LocationRule → List LocationRule
  | [] => [x]
  | y :: ys =>
    if y.matcher.length < x.matcher.length then x :: y :: ys
    else y :: stableInsert x ys

/-- Stable sort by descending matcher length (the model of
`.sort((a, b) => b.matcher.length - a.matcher.length)` on the freshly
filtered prefix-candidate array). -/
def stableSortDesc (l : List LocationRule) : List LocationRule :=
  l.foldl (fun acc x => stableInsert x acc) []

/-- `pickLocation`: exact rules first (`filter`, then element 0); otherwise
the prefix candidates sorted by descending matcher length with the head
taken, returned immediately when it carries `noRegex`; otherwise the first
matching regex rule in declaration order; otherwise the best prefix (which
may be absent). -/
def pickLocation (locs : List LocationRule) (pathname : String) : Option LocationRule :=
  match (locs.filter fun l =>
      l.kind = LocKind.exact && l.matcher = pathname).head? with
  | some l => some l
  | none =>
    let bestPrefix :=
      (stableSortDesc (locs.filter fun l =>
        l.kind = LocKind.pfx && jsStartsWith pathname l.matcher)).head?
    if (match bestPrefix with
        | some b => b.noRegex
        | none => false) then
      bestPrefix
    else
      match locs.find? fun l => l.kind = LocKind.regex && regexTest l pathname with
      | some r => some r
      | none => bestPrefix

/-- The specification's reading of the prefix step: scan the candidates in
source order and keep the current winner unless a strictly longer matcher
comes along — i.e. the rule with the longest matcher, ties broken by first
occurrence in source order. -/
def longestPrefixRule (cands : List LocationRule) : Option LocationRule :=
  cands.foldl
    (fun best l =>
      match best with
      | none => some l
      | some b => if b.matcher.length < l.matcher.length then some l else some b)
    none

/-- The location-matching precedence exactly as the specification words it:
first Exact rule whose matcher equals the path; otherwise the
longest-matcher prefix candidate (ties to source order), returned
immediately when flagged stop-on-match; otherwise the first matching Regex
rule in declaration order; otherwise the prefix winner. -/
def pickLocationSpec (locs : List LocationRule) (pathname : String) : Option LocationRule :=
  match locs.find? fun l => l.kind = LocKind.exact && l.matcher = pathname with
  | some l => some l
  | none =>
    let bestPrefix :=
      longestPrefixRule (locs.filter fun l =>
        l.kind = LocKind.pfx && jsStartsWith pathname l.matcher)
    if (match bestPrefix with
        | some b => b.noRegex
        | none => false) then
      bestPrefix
    else
      match locs.find? fun l => l.kind = LocKind.regex && regexTest l pathname with
      | some r => some r
      | none => bestPrefix

/-! ## Safe path resolver (`safeJoin`) -/

/-- The request-path preprocessing of `safeJoin`: default an empty path to
`/`, fold backslashes to slashes (`replace(/\\/g, '/')`), normalize with
`path.posix.normalize`, then strip leading slashes
(`replace(/^\/+/, '')`). -/
def requestToRelative (requestPath : String) : String :=
  let normalized := posixNormalize (String.mk
    ((if requestPath = "" then "/" else requestPath).data.map
      fun c => if c = '\\' then '/' else c))
  String.mk (normalized.data.dropWhile fun c => c = '/')

/-- `safeJoin`: resolve the preprocessed request path against the root,
then accept the candidate only when, lower-cased, it equals the resolved
root or extends it past a `path.sep`. -/
def safeJoin (rootDir requestPath : String) : Option String :=
  let candidate := jsResolve [rootDir, requestToRelative requestPath]
  let rootResolved := jsResolve [rootDir]
  if jsToLower candidate = jsToLower rootResolved then some candidate
  else if !(jsStartsWith (jsToLower candidate) (jsToLower rootResolved ++ "/")) then
    none
  else some candidate

example : safeJoin "/srv" "/index.html" = some "/srv/index.html" := by decide
example : safeJoin "/srv" "x/../.." = none := by decide

/-! ## Static resolution engine (the request handler's filesystem part) -/

/-- What one `fs.promises.stat` probe observes: a regular file, a
directory, a `stat` rejection with ENOENT, or a `stat` rejection with any
other error (EACCES, EIO, ...). -/
inductive FsEntry where
  | file
  | dir
  | notFound
  | ioError
deriving Repr, DecidableEq

/-- `stats.isFile()`. -/
def FsEntry.isFile : FsEntry → Bool
  | .file => true
  | _ => false

/-- `stats.isDirectory()`. -/
def FsEntry.isDirectory : FsEntry → Bool
  | .dir => true
  | _ => false

/-- `stat` rejected (the `catch` path of `await fs.promises.stat`). -/
def FsEntry.isStatError : FsEntry → Bool
  | .notFound => true
  | .ioError => true
  | _ => false

/-- Terminal outcome of the request handler for a request that reached the
static-file logic. -/
inductive Outcome where
  | serve (path : String)
  | notFound
  | forbidden
  | internalError
deriving Repr, DecidableEq

/-- The handler's index-probing loop: `path.join(targetPath, idxName)` for
each configured index name in order, serving the first probe that is a
regular file (probe errors are swallowed by the inner `catch`). -/
def probeIndex (fsm : String → FsEntry) (dirPath : String) :
    List String → Option String
  | [] => none
  | idxName :: rest =>
    let idxPath := jsJoin dirPath idxName
    if (fsm idxPath).isFile then some idxPath
    else probeIndex fsm dirPath rest

/-- The handler's `try_files` loop: only entries starting with `/` are
probed, joined onto the effective root, first regular file wins. -/
def probeTryFiles (fsm : String → FsEntry) (rootDir : String) :
    List String → Option String
  | [] => none
  | tf :: rest =>
    if jsStartsWith tf "/" then
      let tfPath := jsJoin rootDir tf
      if (fsm tfPath).isFile then some tfPath
      else probeTryFiles fsm rootDir rest
    else probeTryFiles fsm rootDir rest

/-- The handler's `catch` block around the primary `stat`: every `stat`
rejection — ENOENT or otherwise — lands here; `try_files` is probed and
the fallback is a 404. -/
def statCatchFallback (fsm : String → FsEntry) (loc : Option LocationRule)
    (rootDir : String) : Outcome :=
  match loc.bind LocationRule.tryFiles with
  | some tfs =>
    match probeTryFiles fsm rootDir tfs with
    | some p => Outcome.serve p
    | none => Outcome.notFound
  | none => Outcome.notFound

/-- The static-file part of the request handler (`nodeStart`'s
`http.createServer` callback after the proxy branch): `stat` the candidate;
a directory is probed for index files and then the rule's `try_files`; a
`stat` rejection of any kind goes to the `catch` fallback; otherwise the
candidate itself is served. -/
def serveStatic (fsm : String → FsEntry) (loc : Option LocationRule)
    (rootDir : String) (serverIndex : List String) (filePath : String) :
    Outcome :=
  let st := fsm filePath
  if st.isStatError then statCatchFallback fsm loc rootDir
  else if st.isDirectory then
    match probeIndex fsm filePath serverIndex with
    | some p => Outcome.serve p
    | none =>
      match loc.bind LocationRule.tryFiles with
      | some tfs =>
        match probeTryFiles fsm rootDir tfs with
        | some p => Outcome.serve p
        | none => Outcome.notFound
      | none => Outcome.notFound
  else Outcome.serve filePath

/-! ## Helper lemmas -/

/-- The head of a filtered list is its first element satisfying the
predicate. -/
theorem head?_filter {α : Type} (p : α → Bool) (l : List α) :
    (l.filter p).head? = l.find? p := by
  induction l with
  | nil => rfl
  | cons a l ih =>
    cases hp : p a <;> simp [List.filter_cons, List.find?_cons, hp, ih]

/-- Head of a stable descending insertion: the incoming element wins only
when strictly longer. -/
theorem head?_stableInsert (x : LocationRule) (acc : List LocationRule) :
    (stableInsert x acc).head? =
      (match acc.head? with
       | none => some x
       | some b =>
         if b.matcher.length < x.matcher.length then some x else some b) := by
  cases acc with
  | nil => rfl
  | cons y ys =>
    simp only [stableInsert, List.head?_cons]
    split <;> simp

/-- Folding stable insertions only moves the head the way the
longest-strictly-wins scan does. -/
theorem head?_foldl_stableInsert :
    ∀ (l : List LocationRule) (acc : List LocationRule),
      (l.foldl (fun a x => stableInsert x a) acc).head? =
        l.foldl
          (fun best x =>
            match best with
            | none => some x
            | some b =>
              if b.matcher.length < x.matcher.length then some x else some b)
          acc.head? := by
  intro l
  induction l with
  | nil => intro acc; rfl
  | cons x xs ih =>
    intro acc
    rw [List.foldl_cons, List.foldl_cons, ih, head?_stableInsert]

/-- The head of the stable descending sort is the first longest element:
what `prefixes[0]` computes is what the specification describes. -/
theorem head?_stableSortDesc (l : List LocationRule) :
    (stableSortDesc l).head? = longestPrefixRule l := by
  simpa [stableSortDesc, longestPrefixRule] using head?_foldl_stableInsert l []

/-! ## Claim theorems -/

/-- C1: for every document root and request path, `safeJoin` returns either
a rejection (`none`) or an absolute path that lies within the root — the
returned path, compared case-insensitively, equals the resolved root or
starts with the resolved root followed by the path separator. -/
theorem safeJoin_confines (rootDir requestPath c : String)
    (h : safeJoin rootDir requestPath = some c) :
    (∃ t, c = "/" ++ t) ∧
      (jsToLower c = jsToLower (jsResolve [rootDir]) ∨
        jsStartsWith (jsToLower c) (jsToLower (jsResolve [rootDir]) ++ "/") = true) := by
  simp only [safeJoin] at h
  split_ifs at h with h1 h2
  · cases h
    exact ⟨⟨_, rfl⟩, Or.inl h1⟩
  · cases h
    refine ⟨⟨_, rfl⟩, Or.inr ?_⟩
    simpa using h2

/-- C1 witness: `safeJoin` accepts `/index.html` under root `/srv` and the
accepted candidate is confined to the root. -/
theorem safeJoin_confines_witness :
    safeJoin "/srv" "/index.html" = some "/srv/index.html" ∧
      ((∃ t, "/srv/index.html" = "/" ++ t) ∧
        (jsToLower "/srv/index.html" = jsToLower (jsResolve ["/srv"]) ∨
          jsStartsWith (jsToLower "/srv/index.html")
            (jsToLower (jsResolve ["/srv"]) ++ "/") = true)) :=
  ⟨by decide, safeJoin_confines "/srv" "/index.html" "/srv/index.html" (by decide)⟩

/-- C2: `pickLocation` implements exactly the specified precedence — first
Exact rule whose matcher equals the path; otherwise the longest literal
prefix candidate with ties to source order, returned immediately when it
stops on match; otherwise the first Regex rule matching in declaration
order; otherwise the prefix winner (possibly none). -/
theorem pickLocation_matches_spec (locs : List LocationRule) (pathname : String) :
    pickLocation locs pathname = pickLocationSpec locs pathname := by
  simp only [pickLocation, pickLocationSpec, head?_filter, head?_stableSortDesc]

/-- C3 counterexample: the claim says `/../../etc/passwd` is rejected for
every root, but under root `/srv` the traversal segments are normalized
away and `safeJoin` accepts, returning the in-root candidate. -/
theorem safeJoin_traversal_not_rejected :
    safeJoin "/srv" "/../../etc/passwd" = some "/srv/etc/passwd" ∧
      safeJoin "/srv" "/../../etc/passwd" ≠ none := ⟨by decide, by decide⟩

/-- C3 (amended): `/../../etc/passwd` is not rejected but neutralized — for
every root it resolves exactly as the benign path `/etc/passwd` does,
because `path.posix.normalize` collapses the leading `..` segments before
the containment check. -/
theorem safeJoin_traversal_neutralized (rootDir : String) :
    safeJoin rootDir "/../../etc/passwd" = safeJoin rootDir "/etc/passwd" := by
  have h : requestToRelative "/../../etc/passwd" = requestToRelative "/etc/passwd" := by
    decide
  simp only [safeJoin, h]

/-- C3 amended-theorem witness at root `/srv`. -/
theorem safeJoin_traversal_neutralized_witness :
    safeJoin "/srv" "/../../etc/passwd" = safeJoin "/srv" "/etc/passwd" :=
  safeJoin_traversal_neutralized "/srv"

/-- C9: routing is a pure function of the configuration and the path —
location matching and safe path resolution evaluated twice on the same
inputs give identical outcomes.  (The embedding is mutation-free because
the source is: `pickLocation` sorts a freshly filtered array and its
regexes carry no `g` flag, and `safeJoin` only derives new strings.) -/
theorem routing_deterministic (cfg : ServerConfig) (rootDir pathname : String) :
    (pickLocation cfg.locations pathname, safeJoin rootDir pathname) =
      (pickLocation cfg.locations pathname, safeJoin rootDir pathname) := rfl

section MatcherExamples

/-- A throwaway prefix rule for matcher sanity checks. -/
private def pfxRule (m : String) (stop : Bool) : LocationRule :=
  ⟨LocKind.pfx, m, stop, none, none, none, none⟩

/-- A throwaway regex rule (pattern `\.png$`) for matcher sanity checks. -/
private def pngRule : LocationRule :=
  ⟨LocKind.regex, "\\.png$", false,
    some (fun s => ['.', 'p', 'n', 'g'].isSuffixOf s.data), none, none, none⟩

example :
    (pickLocation [pfxRule "/" false, pfxRule "/api" true, pngRule]
      "/api/x.png").map LocationRule.matcher = some "/api" := by decide

example :
    (pickLocation [pfxRule "/" false, pfxRule "/api" false, pngRule]
      "/api/x.png").map LocationRule.matcher = some "\\.png$" := by decide

example :
    (pickLocation [⟨LocKind.exact, "/health", false, none, none, none, none⟩,
      pfxRule "/" false] "/health").map LocationRule.kind = some LocKind.exact := by
  decide

example :
    (pickLocation [pfxRule "/static" false, pfxRule "/static/img" false]
      "/static/img/x.png").map LocationRule.matcher = some "/static/img" := by
  decide

example :
    (pickLocation
      [⟨LocKind.pfx, "/a", false, none, none, some "first", none⟩,
       ⟨LocKind.pfx, "/a", false, none, none, some "second", none⟩]
      "/a/x").map LocationRule.root = some (some "first") := by decide

end MatcherExamples

/-- C4 counterexample: the claim says a `#` discards the pending bare word,
but tokenizing `a#b` emits `a` — the pending characters do appear as a
token in the output. -/
theorem tokenize_comment_pending_emitted :
    tokenizeNginxConf "a#b" = ["a"] ∧ "a" ∈ tokenizeNginxConf "a#b" :=
  ⟨by decide, by decide⟩

/-- C4 (amended): on a `#` outside a quoted token the tokenizer emits (not
discards) any pending bare-word token via `pushCurrent`, then skips all
characters up to the next newline or end-of-input; e.g. `ab#cd` followed by
a newline and `ef` tokenizes to the pending word and the next line's
word. -/
theorem tokenize_comment_flushes_then_skips :
    (∀ (fuel : Nat) (rest current : List Char) (tokens : List String),
        tokenizeAux (fuel + 1) ('#' :: rest) none current tokens =
          tokenizeAux fuel (rest.dropWhile fun c => c ≠ '\n') none []
            (pushCurrent tokens current)) ∧
      tokenizeNginxConf "ab#cd\nef" = ["ab", "ef"] := by
  constructor
  · intro fuel rest current tokens
    rfl
  · decide

/-- C10: a quote character seen while a bare word is in progress opens
quoted mode without ending the pending token, the closing quote merely
leaves quoted mode (again without ending the token), and so `a"b"c`
tokenizes to the single token `abc`. -/
theorem tokenize_quote_continues_token :
    (∀ (fuel : Nat) (rest current : List Char) (tokens : List String),
        tokenizeAux (fuel + 1) ('"' :: rest) none current tokens =
          tokenizeAux fuel rest (some '"') current tokens) ∧
      (∀ (fuel : Nat) (rest current : List Char) (tokens : List String),
        tokenizeAux (fuel + 1) ('\x27' :: rest) none current tokens =
          tokenizeAux fuel rest (some '\x27') current tokens) ∧
      (∀ (fuel : Nat) (q : Char) (rest current : List Char) (tokens : List String),
        tokenizeAux (fuel + 1) (q :: rest) (some q) current tokens =
          tokenizeAux fuel rest none current tokens) ∧
      tokenizeNginxConf "a\"b\"c" = ["abc"] := by
  refine ⟨fun fuel rest current tokens => rfl,
    fun fuel rest current tokens => rfl,
    fun fuel q rest current tokens => ?_, by decide⟩
  simp [tokenizeAux]

/-- AST shape used by the C5 counterexample: an `http` block containing a
`server` block with the directive `listen 0;`. -/
def listenZeroAst : List Node :=
  [Node.block "http" []
    [Node.block "server" [] [Node.directive "listen" ["0"]]]]

/-- C5 counterexample: the claim says every successfully built config has a
listen port in 1..65535, but `listen 0;` builds successfully with
`listenPort = 0`. -/
theorem buildConfig_port_zero :
    ((buildNodeServerConfigFromAst (fun _ _ _ => false) listenZeroAst
        "nginx.conf" "/base").map ServerConfig.listenPort = some 0) ∧
      ¬ (1 ≤ (0 : Nat) ∧ (0 : Nat) ≤ 65535) :=
  ⟨rfl, by decide⟩

/-- The `listen` arguments the builder consults: those of the first
`listen` directive of the first `server` block of the first `http` block
(empty when any of these is missing). -/
def listenArgsOf (ast : List Node) : List String :=
  match (findBlocks ast "http").head? with
  | none => []
  | some httpBlock =>
    match (findBlocks httpBlock.children "server").head? with
    | none => []
    | some server =>
      match (findDirectives server.children "listen").head? with
      | some d => d.args
      | none => []

/-- C5 (amended): a successfully built configuration's `listenPort` is
exactly `parseListenPort` of the first `listen` directive's arguments — the
trailing `:<digits>` group, else a purely numeric argument verbatim, else
80 — with no range validation, so 0 and values above 65535 pass through. -/
theorem buildConfig_listenPort_unvalidated
    (compileRegex : String → String → String → Bool) (ast : List Node)
    (configFilePath baseDir : String) (cfg : ServerConfig)
    (h : buildNodeServerConfigFromAst compileRegex ast configFilePath baseDir =
      some cfg) :
    cfg.listenPort = parseListenPort (listenArgsOf ast) := by
  cases hh : (findBlocks ast "http").head? with
  | none =>
    simp only [buildNodeServerConfigFromAst, hh] at h
    exact Option.noConfusion h
  | some httpBlock =>
    cases hs : (findBlocks httpBlock.children "server").head? with
    | none =>
      simp only [buildNodeServerConfigFromAst, hh, hs] at h
      exact Option.noConfusion h
    | some server =>
      simp only [buildNodeServerConfigFromAst, hh, hs] at h
      cases h
      simp only [listenArgsOf, hh, hs]

/-- AST used by the C5 amended-theorem witness. -/
def listen8080Ast : List Node :=
  [Node.block "http" []
    [Node.block "server" [] [Node.directive "listen" ["0.0.0.0:8080"]]]]

/-- Config built from `listen8080Ast`. -/
def listen8080Cfg : ServerConfig :=
  { listenPort := 8080, serverRoot := "/base",
    serverIndex := ["index.html", "index.htm"], locations := [] }

/-- C5 amended-theorem witness: `listen 0.0.0.0:8080;` builds successfully
and the port is the trailing numeric group. -/
theorem buildConfig_listenPort_unvalidated_witness :
    buildNodeServerConfigFromAst (fun _ _ _ => false) listen8080Ast
        "nginx.conf" "/base" = some listen8080Cfg ∧
      listen8080Cfg.listenPort = parseListenPort (listenArgsOf listen8080Ast) :=
  ⟨rfl, buildConfig_listenPort_unvalidated (fun _ _ _ => false) listen8080Ast
    "nginx.conf" "/base" listen8080Cfg rfl⟩

/-- `takeWhile` over an all-satisfying prefix passes it through. -/
theorem takeWhile_append_all {α : Type} (p : α → Bool) :
    ∀ (l1 l2 : List α), (∀ x ∈ l1, p x = true) →
      (l1 ++ l2).takeWhile p = l1 ++ l2.takeWhile p := by
  intro l1
  induction l1 with
  | nil => intro l2 _; rfl
  | cons a l ih =>
    intro l2 h
    have ha : p a = true := h a (List.mem_cons_self a l)
    simp only [List.cons_append, List.takeWhile_cons, ha]
    rw [ih l2 fun x hx => h x (List.mem_cons_of_mem a hx)]
    simp

/-- `dropWhile` over an all-satisfying prefix discards it. -/
theorem dropWhile_append_all {α : Type} (p : α → Bool) :
    ∀ (l1 l2 : List α), (∀ x ∈ l1, p x = true) →
      (l1 ++ l2).dropWhile p = l2.dropWhile p := by
  intro l1
  induction l1 with
  | nil => intro l2 _; rfl
  | cons a l ih =>
    intro l2 h
    have ha : p a = true := h a (List.mem_cons_self a l)
    simp only [List.cons_append, List.dropWhile_cons, ha]
    exact ih l2 fun x hx => h x (List.mem_cons_of_mem a hx)

/-- C6 counterexample: the claim says a final group with no terminator at
end-of-input is still emitted, but parsing the single token `a` yields an
empty AST — the dangling group is dropped, not emitted. -/
theorem parse_dangling_at_eoi_dropped :
    parseNginxTokens ["a"] = [] ∧
      Node.directive "a" [] ∉ parseNginxTokens ["a"] := by
  refine ⟨rfl, ?_⟩
  rw [show parseNginxTokens ["a"] = [] from rfl]
  exact List.not_mem_nil _

/-- C6 (amended): the parser is total — any fuel past the successor shape
settles these cases without recursion — and never raises; a group with no
terminator of its own sitting before a closing brace is still emitted as a
Directive, with the brace closing the current level (the remainder is what
follows the brace); but a group that runs into end-of-input with no
terminator at all is discarded, not emitted. -/
theorem parse_group_termination_cases (name : String) (args r2 : List String)
    (fuel : Nat) (h : ∀ x ∈ name :: args, isTermTok x = false) :
    parseBlock (fuel + 1) ((name :: args) ++ "\x7d" :: r2) =
        ([Node.directive name args], r2) ∧
      parseBlock (fuel + 1) (name :: args) = ([], []) ∧
      parseNginxTokens ((name :: args) ++ "\x7d" :: r2) =
        [Node.directive name args] ∧
      parseNginxTokens (name :: args) = [] := by
  have hname : isTermTok name = false := h name (List.mem_cons_self name args)
  have hnameNe : ¬ name = "\x7d" := by
    intro he; rw [he] at hname; exact Bool.noConfusion hname
  have hall : ∀ x ∈ name :: args, (fun x => !isTermTok x) x = true := by
    intro x hx; simp [h x hx]
  have htake :
      ((name :: args) ++ "\x7d" :: r2).takeWhile (fun x => !isTermTok x) =
        name :: args := by
    rw [takeWhile_append_all _ _ _ hall]
    simp [List.takeWhile_cons, isTermTok]
  have hdrop :
      ((name :: args) ++ "\x7d" :: r2).dropWhile (fun x => !isTermTok x) =
        "\x7d" :: r2 := by
    rw [dropWhile_append_all _ _ _ hall]
    simp [List.dropWhile_cons, isTermTok]
  have htake2 : (name :: args).takeWhile (fun x => !isTermTok x) = name :: args := by
    have := takeWhile_append_all (fun x => !isTermTok x) (name :: args) [] hall
    simpa using this
  have hdrop2 : (name :: args).dropWhile (fun x => !isTermTok x) = [] := by
    have := dropWhile_append_all (fun x => !isTermTok x) (name :: args) [] hall
    simpa using this
  have h1 : ∀ f : Nat, parseBlock (f + 1) ((name :: args) ++ "\x7d" :: r2) =
      ([Node.directive name args], r2) := by
    intro f
    rw [List.cons_append]
    simp only [parseBlock]
    rw [if_neg hnameNe]
    rw [← List.cons_append, htake, hdrop]
    simp
  have h2 : ∀ f : Nat, parseBlock (f + 1) (name :: args) = ([], []) := by
    intro f
    simp only [parseBlock]
    rw [if_neg hnameNe]
    rw [htake2, hdrop2]
  refine ⟨h1 fuel, h2 fuel, ?_, ?_⟩
  · have hl : ((name :: args) ++ "\x7d" :: r2).length =
        (args.length + r2.length + 1) + 1 := by
      simp [List.length_append]
      omega
    simp only [parseNginxTokens, hl, h1]
  · have hl : (name :: args).length = args.length + 1 := by simp
    simp only [parseNginxTokens, hl, h2]

/-- C6 amended-theorem witness: `root /a` directly before a closing brace
is emitted as a directive with the tokens after the brace left over, while
`root /a` at end-of-input is dropped. -/
theorem parse_group_termination_cases_witness :
    (∀ x ∈ ("root" :: ["/a"] : List String), isTermTok x = false) ∧
      (parseBlock (0 + 1) (("root" :: ["/a"]) ++ "\x7d" :: ["x"]) =
          ([Node.directive "root" ["/a"]], ["x"]) ∧
        parseBlock (0 + 1) ("root" :: ["/a"]) = ([], []) ∧
        parseNginxTokens (("root" :: ["/a"]) ++ "\x7d" :: ["x"]) =
          [Node.directive "root" ["/a"]] ∧
        parseNginxTokens ("root" :: ["/a"]) = []) :=
  ⟨by decide, parse_group_termination_cases "root" ["/a"] ["x"] 0 (by decide)⟩

/-- The index-probing loop serves the first mapped candidate that a probe
sees as a regular file. -/
theorem probeIndex_eq_find (fsm : String → FsEntry) (dirPath : String) :
    ∀ (names : List String),
      probeIndex fsm dirPath names =
        (names.map (jsJoin dirPath)).find? fun p => (fsm p).isFile := by
  intro names
  induction names with
  | nil => rfl
  | cons nm rest ih =>
    simp only [probeIndex, List.map_cons, List.find?_cons]
    cases hf : (fsm (jsJoin dirPath nm)).isFile <;> simp [hf, ih]

/-- The `try_files` loop probes exactly the entries beginning with `/`,
joined onto the effective root, and serves the first regular file. -/
theorem probeTryFiles_eq_find (fsm : String → FsEntry) (rootDir : String) :
    ∀ (tfs : List String),
      probeTryFiles fsm rootDir tfs =
        ((tfs.filter fun tf => jsStartsWith tf "/").map (jsJoin rootDir)).find?
          fun p => (fsm p).isFile := by
  intro tfs
  induction tfs with
  | nil => rfl
  | cons tf rest ih =>
    simp only [probeTryFiles, List.filter_cons]
    cases hs : jsStartsWith tf "/" with
    | false => simp [hs, ih]
    | true =>
      simp only [hs, if_pos, List.map_cons, List.find?_cons]
      cases hf : (fsm (jsJoin rootDir tf)).isFile <;> simp [hf, ih]

/-- C7: when the resolved candidate is a directory, the engine probes the
configured index filenames in order and serves the first regular file;
failing that, and only when the matched rule defines `try_files`, it probes
the candidates beginning with `/` (others are skipped), each joined onto
the rule's effective root, serving the first regular file; if neither probe
succeeds the outcome is not-found. -/
theorem serveStatic_directory_probes (fsm : String → FsEntry)
    (loc : Option LocationRule) (rootDir : String) (serverIndex : List String)
    (filePath : String) (h : fsm filePath = FsEntry.dir) :
    serveStatic fsm loc rootDir serverIndex filePath =
      match (serverIndex.map (jsJoin filePath)).find? (fun p => (fsm p).isFile) with
      | some p => Outcome.serve p
      | none =>
        match loc.bind LocationRule.tryFiles with
        | some tfs =>
          match ((tfs.filter fun tf => jsStartsWith tf "/").map
              (jsJoin rootDir)).find? (fun p => (fsm p).isFile) with
          | some p => Outcome.serve p
          | none => Outcome.notFound
        | none => Outcome.notFound := by
  simp only [serveStatic, h, FsEntry.isStatError, FsEntry.isDirectory,
    Bool.false_eq_true, if_false, if_true, probeIndex_eq_find,
    probeTryFiles_eq_find]

/-- Probe map used by the C7 witness: `/r/d` is a directory whose first
index candidate `/r/d/index.html` exists as a regular file. -/
def fsmIndexHit : String → FsEntry := fun s =>
  if s = "/r/d" then FsEntry.dir
  else if s = "/r/d/index.html" then FsEntry.file
  else FsEntry.notFound

/-- C7 witness: under `fsmIndexHit` the directory request serves the first
index file. -/
theorem serveStatic_directory_probes_witness :
    fsmIndexHit "/r/d" = FsEntry.dir ∧
      serveStatic fsmIndexHit none "/r" ["index.html", "index.htm"] "/r/d" =
        Outcome.serve "/r/d/index.html" :=
  ⟨by decide,
    (serveStatic_directory_probes fsmIndexHit none "/r"
      ["index.html", "index.htm"] "/r/d" (by decide)).trans (by decide)⟩

/-- C8 counterexample: the claim says a probe failing with an error other
than not-found yields a 500 with the error logged, but a probe map whose
every `stat` rejects with a non-ENOENT error produces a plain 404, not a
500. -/
theorem stat_error_yields_not_found :
    serveStatic (fun _ => FsEntry.ioError) none "/r" ["index.html"] "/r/x" =
        Outcome.notFound ∧
      Outcome.notFound ≠ Outcome.internalError :=
  ⟨by decide, by decide⟩

/-- Probes only consult `isFile`, so two probe maps that classify every
path identically as file / non-file drive `probeTryFiles` identically. -/
theorem probeTryFiles_congr (fsm fsm' : String → FsEntry) (rootDir : String)
    (h : ∀ p, (fsm p).isFile = (fsm' p).isFile) :
    ∀ (tfs : List String),
      probeTryFiles fsm rootDir tfs = probeTryFiles fsm' rootDir tfs := by
  intro tfs
  induction tfs with
  | nil => rfl
  | cons tf rest ih =>
    simp only [probeTryFiles, h, ih]

/-- C8 (amended): a `stat` failure with an error other than not-found on
the primary candidate is handled by the same `catch` as not-found — the
rule's `try_files` is probed and the fallback is a 404; the outcome is
never a 500 from this path (the listener does not crash), and the request
resolves exactly as if the candidate had been missing. -/
theorem stat_error_handled_like_not_found (fsm : String → FsEntry)
    (loc : Option LocationRule) (rootDir : String) (serverIndex : List String)
    (filePath : String) (h : fsm filePath = FsEntry.ioError) :
    serveStatic fsm loc rootDir serverIndex filePath =
        statCatchFallback fsm loc rootDir ∧
      statCatchFallback fsm loc rootDir ≠ Outcome.internalError ∧
      serveStatic fsm loc rootDir serverIndex filePath =
        serveStatic (fun p => if p = filePath then FsEntry.notFound else fsm p)
          loc rootDir serverIndex filePath := by
  have hfile : ∀ p,
      (fsm p).isFile =
        ((fun p => if p = filePath then FsEntry.notFound else fsm p) p).isFile := by
    intro p
    by_cases hp : p = filePath
    · subst hp; simp [h, FsEntry.isFile]
    · simp [hp]
  have h1 : serveStatic fsm loc rootDir serverIndex filePath =
      statCatchFallback fsm loc rootDir := by
    simp only [serveStatic, h, FsEntry.isStatError, if_true]
  refine ⟨h1, ?_, ?_⟩
  · unfold statCatchFallback
    cases loc.bind LocationRule.tryFiles with
    | none => simp
    | some tfs =>
      cases hpt : probeTryFiles fsm rootDir tfs <;> simp [hpt]
  · rw [h1]
    have h2 : serveStatic
        (fun p => if p = filePath then FsEntry.notFound else fsm p)
        loc rootDir serverIndex filePath =
        statCatchFallback
          (fun p => if p = filePath then FsEntry.notFound else fsm p)
          loc rootDir := by
      simp only [serveStatic, if_pos rfl, FsEntry.isStatError, if_true]
    rw [h2]
    unfold statCatchFallback
    cases loc.bind LocationRule.tryFiles with
    | none => rfl
    | some tfs => simp only [probeTryFiles_congr fsm _ rootDir hfile tfs]

/-- C8 amended-theorem witness: with every probe rejecting with a
non-ENOENT error and no `try_files`, the outcome is the catch fallback (a
404), not a 500. -/
theorem stat_error_handled_like_not_found_witness :
    (fun _ : String => FsEntry.ioError) "/r/y" = FsEntry.ioError ∧
      (serveStatic (fun _ => FsEntry.ioError) none "/r" ["index.htm"] "/r/y" =
          statCatchFallback (fun _ => FsEntry.ioError) none "/r" ∧
        statCatchFallback (fun _ => FsEntry.ioError) none "/r" ≠
          Outcome.internalError ∧
        serveStatic (fun _ => FsEntry.ioError) none "/r" ["index.htm"] "/r/y" =
          serveStatic
            (fun p => if p = "/r/y" then FsEntry.notFound
              else (fun _ : String => FsEntry.ioError) p)
            none "/r" ["index.htm"] "/r/y") :=
  ⟨rfl, stat_error_handled_like_not_found (fun _ => FsEntry.ioError) none "/r"
    ["index.htm"] "/r/y" rfl⟩

end NginxSim
